import Mathlib

/-!
Shallow embedding of the offline path tracer of `src/apps/raytracerdemo/main.cpp`
(GL_Template). Scalars are modelled as rationals; IEEE-754 results that are
not finite (NaN or an infinity, produced by a division by zero or by
normalizing a zero vector) are modelled explicitly with `Option` (`none` is
the non-finite outcome). The transcendental channel operations that the code
performs with `glm::pow` (decode to linear with exponent 2.2, encode with
exponent 1/2.2) and the square root used by `glm::normalize` are abstracted
as explicit function parameters: no claim depends on their numeric values,
only on where the code applies them.

The collaborator components whose sources are not part of the excerpt
(`Raycaster`, `Random`, `Image::rgbl`, `Camera::pixelShifts`, the lights'
`visible` capability, `System::forParallel`) are modelled from the spec as
oracles: see the individual doc comments.
-/

namespace Raytracer

/-- RGB triple of linear radiance values, one rational per channel. -/
structure Vec3 where
  x : ℚ
  y : ℚ
  z : ℚ
deriving DecidableEq, Repr

/-- Componentwise addition (glm `+` on `vec3`). -/
def vadd (a b : Vec3) : Vec3 := ⟨a.x + b.x, a.y + b.y, a.z + b.z⟩

/-- Componentwise product (glm `*` on `vec3`), used for `attenColor *= baseColor`
and `attenColor * illumination`. -/
def vmul (a b : Vec3) : Vec3 := ⟨a.x * b.x, a.y * b.y, a.z * b.z⟩

/-- Scalar times vector. -/
def vscale (s : ℚ) (v : Vec3) : Vec3 := ⟨s * v.x, s * v.y, s * v.z⟩

/-- Dot product of two vectors. -/
def vdot (a b : Vec3) : ℚ := a.x * b.x + a.y * b.y + a.z * b.z

/-- Componentwise application of a channel function, modelling
`glm::pow(v, glm::vec3(e))` with the channel power abstracted as `f`. -/
def vmap (f : ℚ → ℚ) (v : Vec3) : Vec3 := ⟨f v.x, f v.y, f v.z⟩

/-- The zero vector `glm::vec3(0.0f)`. -/
def vzero : Vec3 := ⟨0, 0, 0⟩

/-- The all-ones vector `glm::vec3(1.0f)`. -/
def vone : Vec3 := ⟨1, 1, 1⟩

/-- Componentwise order on RGB triples. -/
def vle (a b : Vec3) : Prop := a.x ≤ b.x ∧ a.y ≤ b.y ∧ a.z ≤ b.z

instance (a b : Vec3) : Decidable (vle a b) := by
  unfold vle; infer_instance

/-- `glm::normalize(v) = v / sqrt(dot(v, v))`, with the float square root
abstracted as `sq`. When the divisor is zero (in particular for the zero
vector, since any square root function sends `0` to `0`) the IEEE quotient is
not finite (`0/0` is NaN), modelled as `none`. There is no guard in the code. -/
def vnormalize (sq : ℚ → ℚ) (v : Vec3) : Option Vec3 :=
  if sq (vdot v v) = 0 then none else some (vscale (1 / sq (vdot v v)) v)

/-- Result of `Raycaster::intersects` in the hit case, with the attribute
interpolation (`Raycaster::interpolateNormal` / `interpolateUV`, whose
sources are not in the excerpt) folded into the oracle output.
Modelled from the spec: the Intersector "returns the closest surface hit
(object id, triangle id, barycentric-like interpolation data, distance) or
none"; the interpolated normal and UV reconstructed from that data are
recorded directly. -/
structure HitInfo where
  meshId : ℕ
  dist : ℚ
  n : Vec3
  uvx : ℚ
  uvy : ℚ

/-- Modelled from the spec: a scene light's visibility capability
`(point, accelerator) -> (direction, attenuation, visible)` together with its
intensity (the sources of `DirectionalLight::visible` / `PointLight::visible`
are not in the excerpt). `visible p = none` means the query fails (light
behind the surface or occluded); `some (dir, atten)` returns the direction
and attenuation. -/
structure LightM where
  visible : Vec3 → Option (Vec3 × ℚ)
  intensity : Vec3

/-- `scene.backgroundMode` with its payload: either the constant
`scene.backgroundColor` or the background image, the latter modelled from the
spec as a lookup function (the `Image::rgbl` source is not in the excerpt). -/
inductive BackgroundM where
  | color (c : Vec3)
  | image (lookup : ℚ → ℚ → Vec3)

/-- The scene and collaborator oracles the path loop of `main` consumes.
`intersect` models `raycaster.intersects` (closest hit or none), `texAt`
models `scene.objects[meshId].textures()[0]->images[0].rgbl(uv)`, `sphereOf`
models `Random::sampleSphere()` as a function of two stream draws, `sq` and
`decode` are the abstracted float channel operations (square root and the
power 2.2). All are modelled from the spec where their sources are missing
from the excerpt. -/
structure World where
  intersect : Vec3 → Vec3 → Option HitInfo
  texAt : ℕ → ℚ → ℚ → Vec3
  lights : List LightM
  background : BackgroundM
  sphereOf : ℚ → ℚ → Vec3
  sq : ℚ → ℚ
  decode : ℚ → ℚ

/-- The background sample taken on a primary miss: image lookup at the
normalized device coordinates, or the constant background color
(`main.cpp` lines 151–157). -/
def backgroundSample (W : World) (nx ny : ℚ) : Vec3 :=
  match W.background with
  | .image lookup => lookup nx ny
  | .color c => c

/-- The illumination accumulation loop over `scene.lights`
(`main.cpp` lines 170–178): starting from `glm::vec3(0.0f)`, each light whose
visibility query succeeds adds `attenuation * max(dot(n, direction), 0) *
light->intensity()`; a failed query adds nothing. -/
def illuminationAt (lights : List LightM) (p n : Vec3) : Vec3 :=
  lights.foldl (fun acc l =>
    match l.visible p with
    | some (direction, atten) => vadd acc (vscale (atten * max (vdot n direction) 0) l.intensity)
    | none => acc) vzero

/-- The per-light contribution term, used to restate `illuminationAt` as a
sum over the light list. -/
def lightContrib (p n : Vec3) (l : LightM) : Vec3 :=
  match l.visible p with
  | some (direction, atten) => vscale (atten * max (vdot n direction) 0) l.intensity
  | none => vzero

/-- Mutable state of one traced sample inside the bounce loop of `main`:
current ray origin and direction, the running `sampleColor` accumulator and
the running throughput `attenColor`, plus the index of the next unconsumed
draw of the row's random stream. A `none` direction records that
`glm::normalize` produced a non-finite vector (every subsequent intersection
query with it misses). -/
structure PathState where
  rayPos : Vec3
  rayDir : Option Vec3
  sampleColor : Vec3
  attenColor : Vec3
  ridx : ℕ

/-- The hit branch of one bounce iteration (`main.cpp` lines 162–195), for
bounce index `did` out of `depth`: reconstruct the hit point `p`, the
interpolated normal and UV; accumulate the lights' illumination; decode the
base color from the texture (`glm::pow(rgbl(uv), vec3(2.2))`); multiply the
throughput by it and add `attenColor * illumination` to the sample color;
and, when `did < depth - 1`, move the ray origin to `p` and set the direction
to `normalize(n + Random::sampleSphere())`, consuming two stream draws, with
no near-zero check and no resampling. -/
def bounceHit (W : World) (rng : ℕ → ℚ) (depth did : ℕ) (st : PathState)
    (dir : Vec3) (hit : HitInfo) : PathState :=
  let p := vadd st.rayPos (vscale hit.dist dir)
  let n := hit.n
  let illumination := illuminationAt W.lights p n
  let baseColor := vmap W.decode (W.texAt hit.meshId hit.uvx hit.uvy)
  let atten := vmul st.attenColor baseColor
  let scol := vadd st.sampleColor (vmul atten illumination)
  if did < depth - 1 then
    { rayPos := p
      rayDir := vnormalize W.sq (vadd n (W.sphereOf (rng st.ridx) (rng (st.ridx + 1))))
      sampleColor := scol
      attenColor := atten
      ridx := st.ridx + 2 }
  else
    { st with sampleColor := scol, attenColor := atten }

/-- The miss branch of one bounce iteration (`main.cpp` lines 146–160): the
code tests `depth == 0` — the loop bound, not the bounce index `did` — before
sampling the background into `sampleColor`, then breaks. The test is kept
exactly as written. -/
def bounceMiss (W : World) (depth : ℕ) (nx ny : ℚ) (st : PathState) : PathState :=
  if depth = 0 then { st with sampleColor := backgroundSample W nx ny } else st

/-- The bounce loop `for(did = 0; did < depth; ++did)` of `main.cpp`
lines 142–196, by recursion on the number of remaining iterations
(`remaining + did = depth` at every call). A miss (including an intersection
query with a non-finite direction) takes the miss branch and breaks; a hit
runs `bounceHit` and continues. -/
def pathLoop (W : World) (rng : ℕ → ℚ) (nx ny : ℚ) (depth : ℕ) :
    ℕ → ℕ → PathState → PathState
  | 0, _, st => st
  | remaining + 1, did, st =>
    match st.rayDir with
    | none => bounceMiss W depth nx ny st
    | some dir =>
      match W.intersect st.rayPos dir with
      | none => bounceMiss W depth nx ny st
      | some hit => pathLoop W rng nx ny depth remaining (did + 1) (bounceHit W rng depth did st dir hit)

/-- Modelled from the spec: the camera "exposes a ray-generation basis
(corner + two pixel-extent vectors)" — the outputs of
`Camera::pixelShifts(corner, dx, dy)` and `camera.position()`, whose sources
are not in the excerpt. -/
structure CameraM where
  position : Vec3
  corner : Vec3
  dx : Vec3
  dy : Vec3

/-- One traced sample of pixel `(x, y)` (`main.cpp` lines 127–196): draw the
two jitter values from the row stream, build the normalized device
coordinates and the point on the image plane, shoot the normalized camera
ray and run the bounce loop. Returns the final path state (its
`sampleColor` is added to the pixel, its `ridx` is the next free draw). -/
def traceSample (W : World) (cam : CameraM) (rng : ℕ → ℚ) (width height : ℕ)
    (depth : ℕ) (x y : ℕ) (ridx : ℕ) : PathState :=
  let jx := rng ridx
  let jy := rng (ridx + 1)
  let nx := ((x : ℚ) + jx) / (width : ℚ)
  let ny := ((y : ℚ) + jy) / (height : ℚ)
  let worldPos := vadd cam.corner (vadd (vscale nx cam.dx) (vscale ny cam.dy))
  let rayPos := cam.position
  let rayDir := vnormalize W.sq (vadd worldPos (vscale (-1) cam.position))
  pathLoop W rng nx ny depth depth 0
    { rayPos := rayPos, rayDir := rayDir, sampleColor := vzero, attenColor := vone, ridx := ridx + 2 }

/-- The output image buffer, a function from pixel coordinates to the RGB
accumulator (`Image render(w, h, 3)`, zero-initialized). -/
abbrev ImageM := ℕ → ℕ → Vec3

/-- Write one pixel of the image, all others unchanged. -/
def setPix (img : ImageM) (x y : ℕ) (v : Vec3) : ImageM :=
  fun a b => if a = x ∧ b = y then v else img a b

/-- The per-pixel sample loop `for(sid = 0; sid < samples; ++sid)`
(`main.cpp` lines 127–199), by recursion on the remaining sample count:
trace one sample and add its `sampleColor` to pixel `(x, y)`
(`render.rgb(x,y) += sampleColor`), threading the row stream index. -/
def sampleLoop (W : World) (cam : CameraM) (rng : ℕ → ℚ) (width height depth : ℕ)
    (x y : ℕ) : ℕ → ℕ → ImageM → ImageM × ℕ
  | 0, ridx, img => (img, ridx)
  | remaining + 1, ridx, img =>
    let st := traceSample W cam rng width height depth x y ridx
    sampleLoop W cam rng width height depth x y remaining st.ridx
      (setPix img x y (vadd (img x y) st.sampleColor))

/-- The pixel loop `for(x = 0; x < width; ++x)` of one row worker
(`main.cpp` lines 125–200), by recursion on the remaining pixel count. -/
def rowPixels (W : World) (cam : CameraM) (rng : ℕ → ℚ) (width height depth samples : ℕ)
    (y : ℕ) : ℕ → ℕ → ℕ → ImageM → ImageM
  | 0, _, _, img => img
  | remaining + 1, x, ridx, img =>
    let r := sampleLoop W cam rng width height depth x y samples ridx img
    rowPixels W cam rng width height depth samples y remaining (x + 1) r.2 r.1

/-- The shading worker for row `y`: the lambda passed to the first
`System::forParallel` call (`main.cpp` lines 124–201). `rng` is the row's
random stream (modelled from the spec: §5 allows "one independent generator
per worker/row"; the `Random` sources are not in the excerpt). -/
def shadeRow (W : World) (cam : CameraM) (rng : ℕ → ℚ)
    (width height depth samples : ℕ) (y : ℕ) (img : ImageM) : ImageM :=
  rowPixels W cam rng width height depth samples y width 0 0 img

/-- Modelled from the spec: `System::forParallel(0, height, worker)` — the
source is not in the excerpt; its contract "invokes `worker(y)` for every row
index in [0,height), … blocking the caller until all rows complete" is
modelled as a fold of the workers over the rows in order (the claims proved
below show each worker touches only its own row, so the order is
irrelevant). -/
def forRows {α : Type} (height : ℕ) (worker : ℕ → α → α) (a : α) : α :=
  (List.range height).foldl (fun acc y => worker y acc) a

/-- The shading pass: the first `forParallel` over all rows, starting from
the zero-initialized image. `rngF y` is row `y`'s random stream. -/
def renderAccum (W : World) (cam : CameraM) (rngF : ℕ → ℕ → ℚ)
    (width height depth samples : ℕ) : ImageM :=
  forRows height (fun y img => shadeRow W cam (rngF y) width height depth samples y img)
    (fun _ _ => vzero)

/-- The image after the normalization pass; `none` is a pixel whose channels
are not finite (NaN). -/
abbrev NImageM := ℕ → ℕ → Option Vec3

/-- `render.rgb(x,y) / float(samples)`: IEEE division of the accumulator by
the sample count; a zero divisor produces a non-finite result (`0/0` is NaN),
modelled as `none`. The code has no guard. -/
def divSamples (samples : ℕ) (c : Vec3) : Option Vec3 :=
  if (samples : ℚ) = 0 then none else some (vscale (1 / (samples : ℚ)) c)

/-- One pixel of the normalization pass (`main.cpp` lines 207–208): divide by
the sample count, then `glm::pow(color, vec3(1/2.2))` with the channel power
abstracted as `encode`; a non-finite input stays non-finite. -/
def normPixel (encode : ℚ → ℚ) (samples : ℕ) (c : Option Vec3) : Option Vec3 :=
  (c.bind (divSamples samples)).map (vmap encode)

/-- Write one pixel of the normalized image. -/
def setPixN (img : NImageM) (x y : ℕ) (v : Option Vec3) : NImageM :=
  fun a b => if a = x ∧ b = y then v else img a b

/-- The pixel loop of the normalization worker for row `y`
(`main.cpp` lines 206–209). -/
def normRowPixels (encode : ℚ → ℚ) (samples : ℕ) (y : ℕ) :
    ℕ → ℕ → NImageM → NImageM
  | 0, _, img => img
  | remaining + 1, x, img =>
    normRowPixels encode samples y remaining (x + 1) (setPixN img x y (normPixel encode samples (img x y)))

/-- The normalization worker for row `y`: the lambda passed to the second
`System::forParallel` call (`main.cpp` lines 205–210). -/
def normRow (encode : ℚ → ℚ) (samples width : ℕ) (y : ℕ) (img : NImageM) : NImageM :=
  normRowPixels encode samples y width 0 img

/-- The normalization pass over the accumulated image: every channel is
finite on entry (the shading pass computes rational values). -/
def normPass (encode : ℚ → ℚ) (samples width height : ℕ) (acc : ImageM) : NImageM :=
  forRows height (fun y img => normRow encode samples width y img) (fun a b => some (acc a b))

/-- The whole render of `main`: the shading pass followed by the
normalization/gamma pass. -/
def renderImage (W : World) (cam : CameraM) (rngF : ℕ → ℕ → ℚ)
    (width height depth samples : ℕ) (encode : ℚ → ℚ) : NImageM :=
  normPass encode samples width height (renderAccum W cam rngF width height depth samples)

/-- Sum of a list of RGB triples, used to restate the illumination loop. -/
def vsum (l : List Vec3) : Vec3 := l.foldl vadd vzero

/-- Hypotheses of the non-negativity invariant: every light has non-negative
intensity channels and returns non-negative attenuations, every texture
sample is non-negative, and the decode power preserves non-negativity (all
true of the real scene data and of the channel power 2.2). -/
def NonnegWorld (W : World) : Prop :=
  (∀ l, l ∈ W.lights → vle vzero l.intensity ∧ ∀ p d a, l.visible p = some (d, a) → 0 ≤ a) ∧
  (∀ i u v, vle vzero (W.texAt i u v)) ∧
  (∀ q, 0 ≤ q → 0 ≤ W.decode q)

/-- Test scene in which every ray misses (no geometry) and the background is
the constant color `bg`; the float square root is exact on the values the
fixture produces (`sq 0 = 0`, `sq 1 = 1`). -/
def missWorld (bg : Vec3) : World :=
  { intersect := fun _ _ => none
    texAt := fun _ _ _ => vzero
    lights := []
    background := .color bg
    sphereOf := fun _ _ => ⟨0, 0, 1⟩
    sq := fun q => q
    decode := fun q => q }

/-- Camera fixture shooting every sample in the same direction: position at
the origin, image-plane corner at `(0,0,1)`, zero pixel extents, so the
primary direction is the unit vector `(0,0,1)` for every jitter. -/
def missCam : CameraM := ⟨vzero, ⟨0, 0, 1⟩, vzero, vzero⟩

/-- The end-to-end scenario of the spec: one quad facing `+z` whose every
intersection query reports a hit at distance 1 with normal `(0,0,1)` and UV
`(1/2, 1/2)`, one directional light shining straight at it (direction
`(0,0,1)`, attenuation 1, intensity `i`), texture value `t` everywhere, and
channel decode `d`. -/
def quadWorld (d : ℚ → ℚ) (t i : Vec3) : World :=
  { intersect := fun _ _ => some ⟨0, 1, ⟨0, 0, 1⟩, 1/2, 1/2⟩
    texAt := fun _ _ _ => t
    lights := [⟨fun _ => some (⟨0, 0, 1⟩, 1), i⟩]
    background := .color vzero
    sphereOf := fun _ _ => ⟨0, 0, 1⟩
    sq := fun q => q
    decode := d }

/-- Camera of the end-to-end scenario: at `(0,0,2)` looking toward the
origin, with zero pixel extents so every sample's primary direction is
`(0,0,-1)` regardless of jitter. -/
def quadCam : CameraM := ⟨⟨0, 0, 2⟩, ⟨0, 0, 1⟩, vzero, vzero⟩

theorem vadd_vzero (v : Vec3) : vadd v vzero = v := by
  cases v; simp [vadd, vzero]

theorem vzero_vadd (v : Vec3) : vadd vzero v = v := by
  cases v; simp [vadd, vzero]

theorem vadd_assoc (a b c : Vec3) : vadd (vadd a b) c = vadd a (vadd b c) := by
  cases a; cases b; cases c
  simp only [vadd, Vec3.mk.injEq]
  refine ⟨by ring, by ring, by ring⟩

theorem vle_refl (v : Vec3) : vle v v := ⟨le_refl _, le_refl _, le_refl _⟩

theorem vle_trans {a b c : Vec3} (h1 : vle a b) (h2 : vle b c) : vle a c :=
  ⟨le_trans h1.1 h2.1, le_trans h1.2.1 h2.2.1, le_trans h1.2.2 h2.2.2⟩

theorem vadd_nonneg {a b : Vec3} (ha : vle vzero a) (hb : vle vzero b) :
    vle vzero (vadd a b) := by
  obtain ⟨h1, h2, h3⟩ := ha; obtain ⟨g1, g2, g3⟩ := hb
  simp only [vle, vzero, vadd] at *
  exact ⟨by linarith, by linarith, by linarith⟩

theorem vle_vadd_self {a b : Vec3} (hb : vle vzero b) : vle a (vadd a b) := by
  obtain ⟨g1, g2, g3⟩ := hb
  simp only [vle, vzero, vadd] at *
  exact ⟨by linarith, by linarith, by linarith⟩

theorem vmul_nonneg {a b : Vec3} (ha : vle vzero a) (hb : vle vzero b) :
    vle vzero (vmul a b) := by
  obtain ⟨h1, h2, h3⟩ := ha; obtain ⟨g1, g2, g3⟩ := hb
  simp only [vle, vzero, vmul] at *
  exact ⟨mul_nonneg h1 g1, mul_nonneg h2 g2, mul_nonneg h3 g3⟩

theorem vscale_nonneg {s : ℚ} {v : Vec3} (hs : 0 ≤ s) (hv : vle vzero v) :
    vle vzero (vscale s v) := by
  obtain ⟨h1, h2, h3⟩ := hv
  simp only [vle, vzero, vscale] at *
  exact ⟨mul_nonneg hs h1, mul_nonneg hs h2, mul_nonneg hs h3⟩

theorem vscale_vzero (s : ℚ) : vscale s vzero = vzero := by
  simp [vscale, vzero]

theorem vsum_foldl (l : List Vec3) : ∀ acc : Vec3, l.foldl vadd acc = vadd acc (vsum l) := by
  induction l with
  | nil => intro acc; exact (vadd_vzero acc).symm
  | cons a l ih =>
    intro acc
    simp only [vsum, List.foldl_cons]
    rw [ih (vadd acc a), ih (vadd vzero a), vzero_vadd, vadd_assoc]

theorem vsum_cons (a : Vec3) (l : List Vec3) : vsum (a :: l) = vadd a (vsum l) := by
  have h := vsum_foldl l (vadd vzero a)
  simp only [vsum, List.foldl_cons] at *
  rw [h, vzero_vadd]

/-- Folding `vadd` of a per-element term over a list, starting at `acc`, adds
the sum of the terms. -/
theorem foldl_vadd_term {α : Type} (f : α → Vec3) (ls : List α) :
    ∀ acc : Vec3, ls.foldl (fun acc l => vadd acc (f l)) acc = vadd acc (vsum (ls.map f)) := by
  induction ls with
  | nil => intro acc; exact (vadd_vzero acc).symm
  | cons l ls ih =>
    intro acc
    simp only [List.foldl_cons, List.map_cons, vsum_cons]
    rw [ih (vadd acc (f l)), vadd_assoc]

/-- Each step of the illumination fold adds the light's contribution term
(zero when the visibility query fails). -/
theorem illum_step (p n acc : Vec3) (l : LightM) :
    (match l.visible p with
     | some (direction, atten) => vadd acc (vscale (atten * max (vdot n direction) 0) l.intensity)
     | none => acc) = vadd acc (lightContrib p n l) := by
  cases h : l.visible p with
  | none => simp [lightContrib, h, vadd_vzero]
  | some da => cases da; simp [lightContrib, h]

theorem illuminationAt_eq_vsum (ls : List LightM) (p n : Vec3) :
    illuminationAt ls p n = vsum (ls.map (lightContrib p n)) := by
  simp only [illuminationAt, illum_step]
  rw [foldl_vadd_term (lightContrib p n) ls vzero, vzero_vadd]

/-- In both branches of `bounceHit` (continuing or last allowed bounce), the
throughput is multiplied by the decoded base color and the sample color grows
by the product of the new throughput and the illumination term. -/
theorem bounceHit_fields (W : World) (rng : ℕ → ℚ) (depth did : ℕ) (st : PathState)
    (dir : Vec3) (hit : HitInfo) :
    (bounceHit W rng depth did st dir hit).attenColor
      = vmul st.attenColor (vmap W.decode (W.texAt hit.meshId hit.uvx hit.uvy))
    ∧ (bounceHit W rng depth did st dir hit).sampleColor
      = vadd st.sampleColor
          (vmul (vmul st.attenColor (vmap W.decode (W.texAt hit.meshId hit.uvx hit.uvy)))
            (illuminationAt W.lights (vadd st.rayPos (vscale hit.dist dir)) hit.n)) := by
  unfold bounceHit
  split <;> exact ⟨rfl, rfl⟩

/-- In the non-last-bounce branch of `bounceHit`, the next ray's origin is
the hit point, its direction is `normalize(n + sampleSphere())` computed from
a single pair of stream draws, and exactly those two draws are consumed. -/
theorem bounceHit_next_ray (W : World) (rng : ℕ → ℚ) (depth did : ℕ) (st : PathState)
    (dir : Vec3) (hit : HitInfo) (hdid : did < depth - 1) :
    (bounceHit W rng depth did st dir hit).rayPos = vadd st.rayPos (vscale hit.dist dir)
    ∧ (bounceHit W rng depth did st dir hit).rayDir
        = vnormalize W.sq (vadd hit.n (W.sphereOf (rng st.ridx) (rng (st.ridx + 1))))
    ∧ (bounceHit W rng depth did st dir hit).ridx = st.ridx + 2 := by
  unfold bounceHit
  rw [if_pos hdid]
  exact ⟨rfl, rfl, rfl⟩

/-- C1: the claim says the background is sampled into the sample color
exactly on a first-bounce miss. The code's branch tests `depth == 0` — the
loop bound, which is positive inside the loop — so the branch is dead: at the
failing input (a scene with no geometry, background color `(1,1,1)`,
`depth = 1`), the primary ray misses at bounce index 0 yet the sample color
stays `(0,0,0)` instead of the background, contradicting the code's own
comment that the background "is only sampled for direct paths". -/
theorem c1_background_dead_branch :
    (traceSample (missWorld vone) missCam (fun _ => 0) 1 1 1 0 0 0).sampleColor = vzero
    ∧ backgroundSample (missWorld vone) 0 0 = vone
    ∧ (vzero : Vec3) ≠ vone := by
  refine ⟨?_, ?_, ?_⟩
  · norm_num [traceSample, pathLoop, missWorld, missCam, bounceMiss, vnormalize, vdot, vadd,
      vscale, vzero]
  · norm_num [backgroundSample, missWorld]
  · norm_num [vzero, vone]

/-- C2: the running throughput `attenColor` starts at `(1,1,1)` and, at every
bounce, is multiplied by the decoded base color before `throughput *
illumination` is added to the sample color; consequently, in the one-quad
one-directional-light scenario with `samples = 1` and `depth = 1`, the
pre-gamma pixel value over the quad is `baseColor * cos 0 * intensity =
(texture^2.2) * intensity`. -/
theorem c2_throughput_accumulation :
    (∀ (W : World) (cam : CameraM) (rng : ℕ → ℚ) (w h x y ridx : ℕ),
      (traceSample W cam rng w h 0 x y ridx).attenColor = vone
      ∧ (traceSample W cam rng w h 0 x y ridx).sampleColor = vzero)
    ∧ (∀ (W : World) (rng : ℕ → ℚ) (depth did : ℕ) (st : PathState) (dir : Vec3) (hit : HitInfo),
      (bounceHit W rng depth did st dir hit).attenColor
        = vmul st.attenColor (vmap W.decode (W.texAt hit.meshId hit.uvx hit.uvy))
      ∧ (bounceHit W rng depth did st dir hit).sampleColor
        = vadd st.sampleColor
            (vmul (vmul st.attenColor (vmap W.decode (W.texAt hit.meshId hit.uvx hit.uvy)))
              (illuminationAt W.lights (vadd st.rayPos (vscale hit.dist dir)) hit.n)))
    ∧ (∀ (d : ℚ → ℚ) (t i : Vec3) (rngF : ℕ → ℕ → ℚ),
      renderAccum (quadWorld d t i) quadCam rngF 1 1 1 1 0 0 = vmul (vmap d t) i) := by
  refine ⟨fun W cam rng w h x y ridx => ⟨rfl, rfl⟩, bounceHit_fields, fun d t i rngF => ?_⟩
  norm_num [renderAccum, forRows, List.range_succ, shadeRow, rowPixels, sampleLoop, traceSample,
    pathLoop, bounceHit, illuminationAt, setPix, vmap, vscale, vadd, vmul, vdot, vzero, vone,
    quadWorld, quadCam, vnormalize]

/-- C5 counterexample: the claim says a near-zero `normal + spherePoint` sum
is resampled. At a hit with normal `(0,0,-1)` and the unit-sphere draw
`(0,0,1)` (their sum is exactly zero), the code consumes the single draw and
normalizes the zero vector, producing a non-finite (NaN) direction — no
resampling happens. -/
theorem c5_counterexample :
    (bounceHit (missWorld vone) (fun _ => 0) 2 0
        ⟨vzero, some ⟨0, 0, -1⟩, vzero, vone, 0⟩ ⟨0, 0, -1⟩ ⟨0, 1, ⟨0, 0, -1⟩, 0, 0⟩).rayDir = none
    ∧ vdot ((missWorld vone).sphereOf 0 0) ((missWorld vone).sphereOf 0 0) = 1
    ∧ (bounceHit (missWorld vone) (fun _ => 0) 2 0
        ⟨vzero, some ⟨0, 0, -1⟩, vzero, vone, 0⟩ ⟨0, 0, -1⟩ ⟨0, 1, ⟨0, 0, -1⟩, 0, 0⟩).ridx = 2 := by
  refine ⟨?_, ?_, ?_⟩
  · norm_num [bounceHit, missWorld, vnormalize, vadd, vdot, vzero]
  · norm_num [missWorld, vdot]
  · norm_num [bounceHit, missWorld]

/-- C5 (amended): at every bounce that is not the last allowed one, the next
ray has origin the hit point and direction
`normalize(normal + uniformRandomPointOnUnitSphere())`, computed
unconditionally from a single sphere draw — there is no near-zero check and
no resampling, and a zero sum yields a non-finite (NaN) direction. -/
theorem c5_next_ray_no_resample (W : World) (rng : ℕ → ℚ) (depth did : ℕ)
    (st : PathState) (dir : Vec3) (hit : HitInfo) (hdid : did < depth - 1) :
    (bounceHit W rng depth did st dir hit).rayPos = vadd st.rayPos (vscale hit.dist dir)
    ∧ (bounceHit W rng depth did st dir hit).rayDir
        = vnormalize W.sq (vadd hit.n (W.sphereOf (rng st.ridx) (rng (st.ridx + 1))))
    ∧ (bounceHit W rng depth did st dir hit).ridx = st.ridx + 2 :=
  bounceHit_next_ray W rng depth did st dir hit hdid

/-- C5 witness: the amended next-ray equations at a concrete non-last
bounce. -/
theorem c5_next_ray_no_resample_witness :
    (bounceHit (missWorld vone) (fun _ => 0) 2 0
        ⟨vzero, none, vzero, vone, 0⟩ vzero ⟨0, 1, vzero, 0, 0⟩).ridx = 0 + 2 :=
  (c5_next_ray_no_resample (missWorld vone) (fun _ => 0) 2 0
    ⟨vzero, none, vzero, vone, 0⟩ vzero ⟨0, 1, vzero, 0, 0⟩ (by norm_num)).2.2

/-- C6: the illumination term at a hit point is the sum over the scene's
lights of `attenuation * max(dot(n, lightDir), 0) * intensity`, where a light
whose visibility query fails contributes exactly zero (appending such a light
leaves the sum unchanged) and a visible light appends exactly its term. -/
theorem c6_illumination_sum :
    (∀ (ls : List LightM) (p n : Vec3),
      illuminationAt ls p n = vsum (ls.map (lightContrib p n)))
    ∧ (∀ (p n : Vec3) (l : LightM), l.visible p = none → lightContrib p n l = vzero)
    ∧ (∀ (ls : List LightM) (p n : Vec3) (l : LightM), l.visible p = none →
      illuminationAt (ls ++ [l]) p n = illuminationAt ls p n)
    ∧ (∀ (ls : List LightM) (p n : Vec3) (l : LightM) (dir : Vec3) (a : ℚ),
      l.visible p = some (dir, a) →
      illuminationAt (ls ++ [l]) p n
        = vadd (illuminationAt ls p n) (vscale (a * max (vdot n dir) 0) l.intensity)) := by
  refine ⟨illuminationAt_eq_vsum, ?_, ?_, ?_⟩
  · intro p n l h; simp [lightContrib, h]
  · intro ls p n l h
    simp only [illuminationAt, List.foldl_append, List.foldl_cons, List.foldl_nil, h]
  · intro ls p n l dir a h
    simp only [illuminationAt, List.foldl_append, List.foldl_cons, List.foldl_nil, h]

/-- C6 witness: a light whose visibility query fails contributes the zero
vector, at a concrete light. -/
theorem c6_illumination_sum_witness :
    lightContrib vzero vzero ⟨fun _ => none, vone⟩ = vzero :=
  c6_illumination_sum.2.1 vzero vzero ⟨fun _ => none, vone⟩ rfl

theorem forRows_zero {β : Type} (f : ℕ → β → β) (a : β) : forRows 0 f a = a := rfl

theorem forRows_succ {β : Type} (h : ℕ) (f : ℕ → β → β) (a : β) :
    forRows (h + 1) f a = f h (forRows h f a) := by
  simp [forRows, List.range_succ]

/-- Rows not yet scheduled are untouched: if every worker writes only its own
row, the fold over rows `[0, h)` leaves all rows `≥ h` as in the input. -/
theorem forRows_untouched {β : Type} (f : ℕ → (ℕ → ℕ → β) → (ℕ → ℕ → β))
    (hf : ∀ y img a b, b ≠ y → f y img a b = img a b) :
    ∀ (h : ℕ) (img : ℕ → ℕ → β) (a b : ℕ), h ≤ b → forRows h f img a b = img a b := by
  intro h
  induction h with
  | zero => intro img a b _; rfl
  | succ n ih =>
    intro img a b hb
    rw [forRows_succ, hf n _ a b (by omega)]
    exact ih img a b (by omega)

/-- If every worker writes only its own row and reads only its own row of the
image, then after the fold over rows `[0, h)` each row `y < h` holds exactly
what worker `y` computes from the input image: every row is processed, and
the rows are independent. -/
theorem forRows_row {β : Type} (f : ℕ → (ℕ → ℕ → β) → (ℕ → ℕ → β))
    (hframe : ∀ y img a b, b ≠ y → f y img a b = img a b)
    (hlocal : ∀ y (img img' : ℕ → ℕ → β), (∀ a, img a y = img' a y) →
      ∀ a, f y img a y = f y img' a y) :
    ∀ (h : ℕ) (img : ℕ → ℕ → β) (a y : ℕ), y < h → forRows h f img a y = f y img a y := by
  intro h
  induction h with
  | zero => intro img a y hy; omega
  | succ n ih =>
    intro img a y hy
    rw [forRows_succ]
    rcases Nat.lt_succ_iff_lt_or_eq.mp hy with h1 | h2
    · rw [hframe n _ a y (by omega)]
      exact ih img a y h1
    · subst h2
      exact hlocal y (forRows y f img) img
        (fun a2 => forRows_untouched f hframe y img a2 y (le_refl y)) a

/-- A pointwise property of the image preserved by every worker is preserved
by the whole pass. -/
theorem forRows_preserve {β : Type} (P : β → Prop) (f : ℕ → β → β)
    (hf : ∀ y img, P img → P (f y img)) :
    ∀ (h : ℕ) (img : β), P img → P (forRows h f img) := by
  intro h
  induction h with
  | zero => intro img h0; exact h0
  | succ n ih =>
    intro img h0
    rw [forRows_succ]
    exact hf n _ (ih img h0)

/-- The normalization worker's pixel loop writes only pixels of its row with
index in `[x0, x0 + rem)`. -/
theorem normRowPixels_frame (encode : ℚ → ℚ) (samples y : ℕ) :
    ∀ (rem x0 : ℕ) (img : NImageM) (a b : ℕ), b ≠ y ∨ a < x0 ∨ x0 + rem ≤ a →
      normRowPixels encode samples y rem x0 img a b = img a b := by
  intro rem
  induction rem with
  | zero => intro x0 img a b _; rfl
  | succ n ih =>
    intro x0 img a b hcond
    show normRowPixels encode samples y n (x0 + 1) _ a b = img a b
    rw [ih (x0 + 1) _ a b (by omega)]
    have : ¬(a = x0 ∧ b = y) := by
      rcases hcond with h | h | h
      · exact fun hab => h hab.2
      · omega
      · omega
    simp [setPixN, this]

/-- Each write of the normalization pixel loop transforms the pixel's prior
value with `normPixel` and a pixel is written exactly once, so each pixel of
the row in `[x0, x0 + rem)` ends as `normPixel` of its input value. -/
theorem normRowPixels_value (encode : ℚ → ℚ) (samples y : ℕ) :
    ∀ (rem x0 : ℕ) (img : NImageM) (a : ℕ), x0 ≤ a → a < x0 + rem →
      normRowPixels encode samples y rem x0 img a y = normPixel encode samples (img a y) := by
  intro rem
  induction rem with
  | zero => intro x0 img a h1 h2; omega
  | succ n ih =>
    intro x0 img a h1 h2
    show normRowPixels encode samples y n (x0 + 1)
      (setPixN img x0 y (normPixel encode samples (img x0 y))) a y = _
    rcases Nat.eq_or_lt_of_le h1 with heq | hlt
    · rw [heq]
      rw [normRowPixels_frame encode samples y n (a + 1)
        (setPixN img a y (normPixel encode samples (img a y))) a y (by omega)]
      simp [setPixN]
    · rw [ih (x0 + 1) (setPixN img x0 y (normPixel encode samples (img x0 y))) a
        (by omega) (by omega)]
      rw [setPixN, if_neg (by omega)]

theorem normRow_frame (encode : ℚ → ℚ) (samples w y : ℕ) (img : NImageM) (a b : ℕ)
    (hb : b ≠ y) : normRow encode samples w y img a b = img a b :=
  normRowPixels_frame encode samples y w 0 img a b (Or.inl hb)

theorem normRow_local (encode : ℚ → ℚ) (samples w y : ℕ) (img img' : NImageM)
    (hrow : ∀ a, img a y = img' a y) (a : ℕ) :
    normRow encode samples w y img a y = normRow encode samples w y img' a y := by
  by_cases ha : a < w
  · rw [normRow, normRow, normRowPixels_value encode samples y w 0 img a (by omega) (by omega),
      normRowPixels_value encode samples y w 0 img' a (by omega) (by omega), hrow a]
  · rw [normRow, normRow, normRowPixels_frame encode samples y w 0 img a y (by omega),
      normRowPixels_frame encode samples y w 0 img' a y (by omega)]
    exact hrow a

/-- The value of any in-bounds pixel after the normalization pass: its
accumulated color divided by the sample count, then gamma-encoded, with the
division by a zero sample count yielding a non-finite value. -/
theorem normPass_pixel (encode : ℚ → ℚ) (samples w h : ℕ) (acc : ImageM) (x y : ℕ)
    (hx : x < w) (hy : y < h) :
    normPass encode samples w h acc x y = normPixel encode samples (some (acc x y)) := by
  unfold normPass
  rw [forRows_row (fun r im => normRow encode samples w r im)
    (fun r img a b hb => normRow_frame encode samples w r img a b hb)
    (fun r img img' hrow a => normRow_local encode samples w r img img' hrow a)
    h _ x y hy]
  exact normRowPixels_value encode samples y w 0 _ x (by omega) (by omega)

/-- With `depth = 0` the bounce loop never executes, so a traced sample's
color is zero. -/
theorem traceSample_depth_zero (W : World) (cam : CameraM) (rng : ℕ → ℚ)
    (w h x y ridx : ℕ) : (traceSample W cam rng w h 0 x y ridx).sampleColor = vzero := rfl

/-- With `depth = 0` the shading pass only ever adds zero vectors, so an
all-zero image stays all-zero through the sample loop. -/
theorem sampleLoop_depth_zero (W : World) (cam : CameraM) (rng : ℕ → ℚ) (w h x y : ℕ) :
    ∀ (s ridx : ℕ) (img : ImageM), (∀ a b, img a b = vzero) →
      ∀ a b, ((sampleLoop W cam rng w h 0 x y s ridx img).1) a b = vzero := by
  intro s
  induction s with
  | zero => intro ridx img h0 a b; exact h0 a b
  | succ n ih =>
    intro ridx img h0 a b
    refine ih _ _ (fun a2 b2 => ?_) a b
    by_cases hab : a2 = x ∧ b2 = y
    · simp [setPix, hab, h0, traceSample_depth_zero, vadd_vzero]
    · simp [setPix, hab, h0 a2 b2]

theorem rowPixels_depth_zero (W : World) (cam : CameraM) (rng : ℕ → ℚ)
    (w h samples y : ℕ) :
    ∀ (rem x0 ridx : ℕ) (img : ImageM), (∀ a b, img a b = vzero) →
      ∀ a b, rowPixels W cam rng w h 0 samples y rem x0 ridx img a b = vzero := by
  intro rem
  induction rem with
  | zero => intro x0 ridx img h0 a b; exact h0 a b
  | succ n ih =>
    intro x0 ridx img h0 a b
    exact ih (x0 + 1) _ _ (fun a2 b2 => sampleLoop_depth_zero W cam rng w h x0 y samples ridx img h0 a2 b2) a b

/-- With `depth = 0` the whole accumulated image is zero. -/
theorem renderAccum_depth_zero (W : World) (cam : CameraM) (rngF : ℕ → ℕ → ℚ)
    (w h samples : ℕ) (a b : ℕ) : renderAccum W cam rngF w h 0 samples a b = vzero := by
  have := forRows_preserve (fun img : ImageM => ∀ a b, img a b = vzero)
    (fun r im => shadeRow W cam (rngF r) w h 0 samples r im)
    (fun r img h0 a2 b2 => rowPixels_depth_zero W cam (rngF r) w h samples r w 0 0 img h0 a2 b2)
    h (fun _ _ => vzero) (fun _ _ => rfl)
  exact this a b

/-- C3 counterexample: the claim says that with `maxDepth = 0` every pixel
equals the background-sampled value; at `depth = 0`, `samples = 1`, an
all-miss scene with background color `(1,1,1)` and identity gamma, the
rendered pixel is black `(0,0,0)`, not the background. -/
theorem c3_counterexample :
    renderImage (missWorld vone) missCam (fun _ _ => 0) 1 1 0 1 (fun q => q) 0 0 = some vzero
    ∧ backgroundSample (missWorld vone) 0 0 = vone
    ∧ (vzero : Vec3) ≠ vone := by
  refine ⟨?_, ?_, ?_⟩
  · norm_num [renderImage, normPass, forRows, List.range_succ, normRow, normRowPixels, normPixel,
      divSamples, setPixN, renderAccum, shadeRow, rowPixels, sampleLoop, traceSample, pathLoop,
      setPix, vmap, vscale, vadd, vzero, missWorld, missCam]
  · norm_num [backgroundSample, missWorld]
  · norm_num [vzero, vone]

/-- C3 (amended): with `maxDepth = 0` the bounce loop never executes, so no
sample ever accumulates anything — every in-bounds pixel of the output image
is black (zero in every channel after averaging and gamma encoding), not the
background. -/
theorem c3_zero_depth_black (W : World) (cam : CameraM) (rngF : ℕ → ℕ → ℚ)
    (w h samples : ℕ) (encode : ℚ → ℚ) (x y : ℕ)
    (hs : 0 < samples) (he : encode 0 = 0) (hx : x < w) (hy : y < h) :
    renderImage W cam rngF w h 0 samples encode x y = some vzero := by
  rw [renderImage, normPass_pixel encode samples w h _ x y hx hy,
    renderAccum_depth_zero W cam rngF w h samples x y]
  have hsq : ((samples : ℚ)) ≠ 0 := Nat.cast_ne_zero.mpr (by omega)
  simp [normPixel, divSamples, hsq, vscale, vmap, vzero, he]

/-- C3 witness: the amended zero-depth-black statement at a concrete
scene. -/
theorem c3_zero_depth_black_witness :
    renderImage (missWorld vone) missCam (fun _ _ => 0) 2 2 0 3 (fun q => q) 1 1 = some vzero :=
  c3_zero_depth_black (missWorld vone) missCam (fun _ _ => 0) 2 2 3 (fun q => q) 1 1
    (by norm_num) rfl (by norm_num) (by norm_num)

/-- C4 counterexample: the claim says the normalization pass guards its
divisor and a zero-sample render is black; at `samples = 0` the code divides
the zero accumulator by zero, so the pixel is non-finite (NaN), not black. -/
theorem c4_counterexample :
    renderImage (missWorld vone) missCam (fun _ _ => 0) 1 1 5 0 (fun q => q) 0 0 = none
    ∧ (none : Option Vec3) ≠ some vzero := by
  refine ⟨?_, by simp⟩
  norm_num [renderImage, normPass, forRows, List.range_succ, normRow, normRowPixels, normPixel,
    divSamples, setPixN, renderAccum, shadeRow, rowPixels, sampleLoop, traceSample, pathLoop,
    setPix, vmap, vscale, vadd, vzero, missWorld, missCam]

/-- C4 (amended): there is no guard on the divisor — with
`samplesPerPixel = 0` the normalization pass divides every pixel by zero, so
every in-bounds pixel of the output image is non-finite (NaN in the IEEE
code, `none` in the model), not black. -/
theorem c4_zero_samples_nan (W : World) (cam : CameraM) (rngF : ℕ → ℕ → ℚ)
    (w h depth : ℕ) (encode : ℚ → ℚ) (x y : ℕ) (hx : x < w) (hy : y < h) :
    renderImage W cam rngF w h depth 0 encode x y = none := by
  rw [renderImage, normPass_pixel encode 0 w h _ x y hx hy]
  simp [normPixel, divSamples]

/-- C4 witness: the amended zero-samples statement at a concrete scene. -/
theorem c4_zero_samples_nan_witness :
    renderImage (missWorld vone) missCam (fun _ _ => 0) 2 2 5 0 (fun q => q) 0 1 = none :=
  c4_zero_samples_nan (missWorld vone) missCam (fun _ _ => 0) 2 2 5 (fun q => q) 0 1
    (by norm_num) (by norm_num)

/-- C7: for a positive sample count, every in-bounds pixel of the final image
is exactly the accumulated color divided by the sample count and then
channel-wise gamma-encoded — no clamping is applied before the encoding, and
under any encoding that maps values above 1 to values above 1 (as the power
1/2.2 does), a pre-gamma channel above 1 stays above 1 in the output. -/
theorem c7_average_then_gamma (W : World) (cam : CameraM) (rngF : ℕ → ℕ → ℚ)
    (w h depth samples : ℕ) (encode : ℚ → ℚ) (x y : ℕ)
    (hs : 0 < samples) (hx : x < w) (hy : y < h) :
    renderImage W cam rngF w h depth samples encode x y
      = some (vmap encode (vscale (1 / (samples : ℚ))
          (renderAccum W cam rngF w h depth samples x y)))
    ∧ ∀ c : Vec3, (∀ u : ℚ, 1 < u → 1 < encode u) → (samples : ℚ) < c.x →
        1 < (vmap encode (vscale (1 / (samples : ℚ)) c)).x := by
  constructor
  · rw [renderImage, normPass_pixel encode samples w h _ x y hx hy]
    have hsq : ((samples : ℚ)) ≠ 0 := Nat.cast_ne_zero.mpr (by omega)
    simp [normPixel, divSamples, hsq]
  · intro c henc hc
    have hspos : (0 : ℚ) < (samples : ℚ) := by exact_mod_cast hs
    refine henc _ ?_
    rw [vscale]
    rw [one_div, inv_mul_eq_div]
    exact (one_lt_div hspos).mpr hc

/-- C7 witness: the average-then-gamma equation at a concrete render. -/
theorem c7_average_then_gamma_witness :
    renderImage (missWorld vone) missCam (fun _ _ => 0) 1 1 0 1 (fun q => q) 0 0
      = some (vmap (fun q => q) (vscale (1 / ((1 : ℕ) : ℚ))
          (renderAccum (missWorld vone) missCam (fun _ _ => 0) 1 1 0 1 0 0))) :=
  (c7_average_then_gamma (missWorld vone) missCam (fun _ _ => 0) 1 1 0 1 (fun q => q) 0 0
    (by norm_num) (by norm_num) (by norm_num)).1

/-- The sample loop of pixel `(x, y)` writes no pixel other than `(x, y)`. -/
theorem sampleLoop_frame (W : World) (cam : CameraM) (rng : ℕ → ℚ) (w h depth x y : ℕ) :
    ∀ (s ridx : ℕ) (img : ImageM) (a b : ℕ), ¬(a = x ∧ b = y) →
      ((sampleLoop W cam rng w h depth x y s ridx img).1) a b = img a b := by
  intro s
  induction s with
  | zero => intro ridx img a b _; rfl
  | succ n ih =>
    intro ridx img a b hab
    show ((sampleLoop W cam rng w h depth x y n (traceSample W cam rng w h depth x y ridx).ridx
      (setPix img x y (vadd (img x y)
        (traceSample W cam rng w h depth x y ridx).sampleColor))).1) a b = img a b
    rw [ih _ _ a b hab]
    simp [setPix, hab]

/-- The stream index produced by the sample loop does not depend on the
image contents. -/
theorem sampleLoop_ridx (W : World) (cam : CameraM) (rng : ℕ → ℚ) (w h depth x y : ℕ) :
    ∀ (s ridx : ℕ) (img img' : ImageM),
      (sampleLoop W cam rng w h depth x y s ridx img).2
        = (sampleLoop W cam rng w h depth x y s ridx img').2 := by
  intro s
  induction s with
  | zero => intro ridx img img'; rfl
  | succ n ih => intro ridx img img'; exact ih _ _ _

/-- The sample loop of pixel `(x, y)` reads the image only at row `y`: two
images that agree on row `y` produce the same row `y`. -/
theorem sampleLoop_local (W : World) (cam : CameraM) (rng : ℕ → ℚ) (w h depth x y : ℕ) :
    ∀ (s ridx : ℕ) (img img' : ImageM), (∀ a, img a y = img' a y) →
      ∀ a, ((sampleLoop W cam rng w h depth x y s ridx img).1) a y
        = ((sampleLoop W cam rng w h depth x y s ridx img').1) a y := by
  intro s
  induction s with
  | zero => intro ridx img img' hrow a; exact hrow a
  | succ n ih =>
    intro ridx img img' hrow a
    refine ih _ _ _ (fun a2 => ?_) a
    by_cases hax : a2 = x
    · simp [setPix, hax, hrow x]
    · simp [setPix, hax, hrow a2]

/-- The row worker's pixel loop writes only pixels of its own row. -/
theorem rowPixels_row_frame (W : World) (cam : CameraM) (rng : ℕ → ℚ)
    (w h depth samples y : ℕ) :
    ∀ (rem x0 ridx : ℕ) (img : ImageM) (a b : ℕ), b ≠ y →
      rowPixels W cam rng w h depth samples y rem x0 ridx img a b = img a b := by
  intro rem
  induction rem with
  | zero => intro x0 ridx img a b _; rfl
  | succ n ih =>
    intro x0 ridx img a b hb
    show rowPixels W cam rng w h depth samples y n (x0 + 1)
      (sampleLoop W cam rng w h depth x0 y samples ridx img).2
      (sampleLoop W cam rng w h depth x0 y samples ridx img).1 a b = img a b
    rw [ih _ _ _ a b hb]
    exact sampleLoop_frame W cam rng w h depth x0 y samples ridx img a b (fun hab => hb hab.2)

/-- The row worker's pixel loop reads the image only at its own row. -/
theorem rowPixels_row_local (W : World) (cam : CameraM) (rng : ℕ → ℚ)
    (w h depth samples y : ℕ) :
    ∀ (rem x0 ridx : ℕ) (img img' : ImageM), (∀ a, img a y = img' a y) →
      ∀ a, rowPixels W cam rng w h depth samples y rem x0 ridx img a y
        = rowPixels W cam rng w h depth samples y rem x0 ridx img' a y := by
  intro rem
  induction rem with
  | zero => intro x0 ridx img img' hrow a; exact hrow a
  | succ n ih =>
    intro x0 ridx img img' hrow a
    show rowPixels W cam rng w h depth samples y n (x0 + 1)
      (sampleLoop W cam rng w h depth x0 y samples ridx img).2
      (sampleLoop W cam rng w h depth x0 y samples ridx img).1 a y
      = rowPixels W cam rng w h depth samples y n (x0 + 1)
        (sampleLoop W cam rng w h depth x0 y samples ridx img').2
        (sampleLoop W cam rng w h depth x0 y samples ridx img').1 a y
    rw [sampleLoop_ridx W cam rng w h depth x0 y samples ridx img' img]
    exact ih _ _ _ _ (sampleLoop_local W cam rng w h depth x0 y samples ridx img img' hrow) a

theorem shadeRow_frame (W : World) (cam : CameraM) (rng : ℕ → ℚ)
    (w h depth samples y : ℕ) (img : ImageM) (a b : ℕ) (hb : b ≠ y) :
    shadeRow W cam rng w h depth samples y img a b = img a b :=
  rowPixels_row_frame W cam rng w h depth samples y w 0 0 img a b hb

theorem shadeRow_local (W : World) (cam : CameraM) (rng : ℕ → ℚ)
    (w h depth samples y : ℕ) (img img' : ImageM) (hrow : ∀ a, img a y = img' a y) (a : ℕ) :
    shadeRow W cam rng w h depth samples y img a y
      = shadeRow W cam rng w h depth samples y img' a y :=
  rowPixels_row_local W cam rng w h depth samples y w 0 0 img img' hrow a

/-- C8: in both passes the worker for row `y` writes only pixels of row `y`
and reads the image only at row `y`, and the scheduler model applies the
worker of every row index in `[0, height)` — so after the pass each row
holds exactly what its own worker computes from the input image, rows being
mutually independent. -/
theorem c8_rows_disjoint_and_covered :
    (∀ (W : World) (cam : CameraM) (rng : ℕ → ℚ) (w h depth samples y : ℕ)
        (img : ImageM) (a b : ℕ), b ≠ y →
      shadeRow W cam rng w h depth samples y img a b = img a b)
    ∧ (∀ (W : World) (cam : CameraM) (rng : ℕ → ℚ) (w h depth samples y : ℕ)
        (img img' : ImageM), (∀ a, img a y = img' a y) →
      ∀ a, shadeRow W cam rng w h depth samples y img a y
        = shadeRow W cam rng w h depth samples y img' a y)
    ∧ (∀ (encode : ℚ → ℚ) (samples w y : ℕ) (img : NImageM) (a b : ℕ), b ≠ y →
      normRow encode samples w y img a b = img a b)
    ∧ (∀ (encode : ℚ → ℚ) (samples w y : ℕ) (img img' : NImageM),
        (∀ a, img a y = img' a y) →
      ∀ a, normRow encode samples w y img a y = normRow encode samples w y img' a y)
    ∧ (∀ (W : World) (cam : CameraM) (rngF : ℕ → ℕ → ℚ) (w h depth samples : ℕ)
        (img : ImageM) (a y : ℕ), y < h →
      forRows h (fun r im => shadeRow W cam (rngF r) w h depth samples r im) img a y
        = shadeRow W cam (rngF y) w h depth samples y img a y)
    ∧ (∀ (encode : ℚ → ℚ) (samples w h : ℕ) (img : NImageM) (a y : ℕ), y < h →
      forRows h (fun r im => normRow encode samples w r im) img a y
        = normRow encode samples w y img a y) := by
  refine ⟨shadeRow_frame, shadeRow_local, normRow_frame, normRow_local, ?_, ?_⟩
  · intro W cam rngF w h depth samples img a y hy
    exact forRows_row _
      (fun r im a2 b2 hb => shadeRow_frame W cam (rngF r) w h depth samples r im a2 b2 hb)
      (fun r im im2 hrow a2 => shadeRow_local W cam (rngF r) w h depth samples r im im2 hrow a2)
      h img a y hy
  · intro encode samples w h img a y hy
    exact forRows_row _
      (fun r im a2 b2 hb => normRow_frame encode samples w r im a2 b2 hb)
      (fun r im im2 hrow a2 => normRow_local encode samples w r im im2 hrow a2)
      h img a y hy

/-- C8 witness: a pixel of a foreign row is untouched by a concrete row
worker. -/
theorem c8_rows_disjoint_and_covered_witness :
    shadeRow (missWorld vone) missCam (fun _ => 0) 1 1 1 1 0 (fun _ _ => vone) 0 1 = vone :=
  c8_rows_disjoint_and_covered.1 (missWorld vone) missCam (fun _ => 0) 1 1 1 1 0
    (fun _ _ => vone) 0 1 (by norm_num)

/-- C9: the render is a pure function of the seeded random source (modelled
as the per-row streams derived deterministically from the seed) and the
scene inputs: two single-threaded executions starting from the same
generator state produce bit-identical images. -/
theorem c9_deterministic_render (W : World) (cam : CameraM) (w h depth samples : ℕ)
    (encode : ℚ → ℚ) (rngF rngF' : ℕ → ℕ → ℚ) (hseed : rngF = rngF') :
    ∀ x y, renderImage W cam rngF w h depth samples encode x y
      = renderImage W cam rngF' w h depth samples encode x y := by
  subst hseed
  intro x y
  rfl

/-- C9 witness: determinism at a concrete render. -/
theorem c9_deterministic_render_witness :
    renderImage (missWorld vone) missCam (fun _ _ => 0) 1 1 1 1 (fun q => q) 0 0
      = renderImage (missWorld vone) missCam (fun _ _ => 0) 1 1 1 1 (fun q => q) 0 0 :=
  c9_deterministic_render (missWorld vone) missCam 1 1 1 1 (fun q => q)
    (fun _ _ => 0) (fun _ _ => 0) rfl 0 0

theorem vmap_nonneg {f : ℚ → ℚ} (hf : ∀ q, 0 ≤ q → 0 ≤ f q) {v : Vec3}
    (hv : vle vzero v) : vle vzero (vmap f v) := by
  obtain ⟨h1, h2, h3⟩ := hv
  exact ⟨hf _ h1, hf _ h2, hf _ h3⟩

theorem vsum_nonneg : ∀ l : List Vec3, (∀ v ∈ l, vle vzero v) → vle vzero (vsum l) := by
  intro l
  induction l with
  | nil => intro _; exact vle_refl _
  | cons a l ih =>
    intro hl
    rw [vsum_cons]
    exact vadd_nonneg (hl a (List.mem_cons_self a l))
      (ih fun v hv => hl v (List.mem_cons_of_mem a hv))

theorem lightContrib_nonneg (p n : Vec3) (l : LightM) (hint : vle vzero l.intensity)
    (hatt : ∀ p2 d a, l.visible p2 = some (d, a) → 0 ≤ a) :
    vle vzero (lightContrib p n l) := by
  unfold lightContrib
  cases hv : l.visible p with
  | none => exact vle_refl _
  | some da =>
    obtain ⟨d, a⟩ := da
    exact vscale_nonneg (mul_nonneg (hatt p d a hv) (le_max_right _ 0)) hint

/-- Under non-negative light data the illumination term is non-negative in
every channel. -/
theorem illuminationAt_nonneg (ls : List LightM) (p n : Vec3)
    (hl : ∀ l, l ∈ ls → vle vzero l.intensity ∧
      ∀ p2 d a, l.visible p2 = some (d, a) → 0 ≤ a) :
    vle vzero (illuminationAt ls p n) := by
  rw [illuminationAt_eq_vsum]
  refine vsum_nonneg _ (fun v hv => ?_)
  obtain ⟨l, hmem, rfl⟩ := List.mem_map.mp hv
  exact lightContrib_nonneg p n l (hl l hmem).1 (hl l hmem).2

/-- Invariant of the bounce loop under non-negative scene data: the sample
color stays non-negative and never decreases, and the throughput stays
non-negative. Requires a positive loop bound, which is the only way the loop
body is reached. -/
theorem pathLoop_invariant (W : World) (rng : ℕ → ℚ) (nx ny : ℚ) (depth : ℕ)
    (hW : NonnegWorld W) (hd : 0 < depth) :
    ∀ (fuel did : ℕ) (st : PathState), vle vzero st.attenColor → vle vzero st.sampleColor →
      vle vzero (pathLoop W rng nx ny depth fuel did st).sampleColor
      ∧ vle st.sampleColor (pathLoop W rng nx ny depth fuel did st).sampleColor
      ∧ vle vzero (pathLoop W rng nx ny depth fuel did st).attenColor := by
  intro fuel
  induction fuel with
  | zero => intro did st hatt hsc; exact ⟨hsc, vle_refl _, hatt⟩
  | succ n ih =>
    intro did st hatt hsc
    cases hdir : st.rayDir with
    | none =>
      simp only [pathLoop, hdir, bounceMiss, if_neg (Nat.pos_iff_ne_zero.mp hd)]
      exact ⟨hsc, vle_refl _, hatt⟩
    | some dir =>
      cases hint : W.intersect st.rayPos dir with
      | none =>
        simp only [pathLoop, hdir, hint, bounceMiss, if_neg (Nat.pos_iff_ne_zero.mp hd)]
        exact ⟨hsc, vle_refl _, hatt⟩
      | some hit =>
        have hbase : vle vzero (vmap W.decode (W.texAt hit.meshId hit.uvx hit.uvy)) :=
          vmap_nonneg hW.2.2 (hW.2.1 hit.meshId hit.uvx hit.uvy)
        have hillum : vle vzero (illuminationAt W.lights
            (vadd st.rayPos (vscale hit.dist dir)) hit.n) :=
          illuminationAt_nonneg W.lights _ hit.n hW.1
        have hatt2 : vle vzero (bounceHit W rng depth did st dir hit).attenColor := by
          rw [(bounceHit_fields W rng depth did st dir hit).1]
          exact vmul_nonneg hatt hbase
        have hstep : vle st.sampleColor (bounceHit W rng depth did st dir hit).sampleColor := by
          rw [(bounceHit_fields W rng depth did st dir hit).2]
          exact vle_vadd_self (vmul_nonneg (vmul_nonneg hatt hbase) hillum)
        have hsc2 : vle vzero (bounceHit W rng depth did st dir hit).sampleColor :=
          vle_trans hsc hstep
        obtain ⟨g1, g2, g3⟩ := ih (did + 1) (bounceHit W rng depth did st dir hit) hatt2 hsc2
        simp only [pathLoop, hdir, hint]
        exact ⟨g1, vle_trans hstep g2, g3⟩

/-- Every traced sample's color is non-negative under non-negative scene
data. -/
theorem traceSample_nonneg (W : World) (cam : CameraM) (rng : ℕ → ℚ)
    (w h depth x y ridx : ℕ) (hW : NonnegWorld W) :
    vle vzero (traceSample W cam rng w h depth x y ridx).sampleColor := by
  cases depth with
  | zero => exact vle_refl _
  | succ d =>
    exact (pathLoop_invariant W rng _ _ (d + 1) hW (Nat.succ_pos d) (d + 1) 0 _
      (by norm_num [vle, vzero, vone]) (vle_refl _)).1

/-- Each traced sample only adds to its pixel, so the sample loop never
decreases any pixel of the image. -/
theorem sampleLoop_monotone (W : World) (cam : CameraM) (rng : ℕ → ℚ)
    (w h depth x y : ℕ) (hW : NonnegWorld W) :
    ∀ (s ridx : ℕ) (img : ImageM) (a b : ℕ),
      vle (img a b) (((sampleLoop W cam rng w h depth x y s ridx img).1) a b) := by
  intro s
  induction s with
  | zero => intro ridx img a b; exact vle_refl _
  | succ n ih =>
    intro ridx img a b
    refine vle_trans (b := (setPix img x y (vadd (img x y)
      (traceSample W cam rng w h depth x y ridx).sampleColor)) a b) ?_ (ih _ _ a b)
    by_cases hab : a = x ∧ b = y
    · obtain ⟨rfl, rfl⟩ := hab
      simp only [setPix, and_self, if_true, reduceIte]
      exact vle_vadd_self (traceSample_nonneg W cam rng w h depth a b ridx hW)
    · simp only [setPix, if_neg hab]
      exact vle_refl _

theorem rowPixels_monotone (W : World) (cam : CameraM) (rng : ℕ → ℚ)
    (w h depth samples y : ℕ) (hW : NonnegWorld W) :
    ∀ (rem x0 ridx : ℕ) (img : ImageM) (a b : ℕ),
      vle (img a b) (rowPixels W cam rng w h depth samples y rem x0 ridx img a b) := by
  intro rem
  induction rem with
  | zero => intro x0 ridx img a b; exact vle_refl _
  | succ n ih =>
    intro x0 ridx img a b
    exact vle_trans (sampleLoop_monotone W cam rng w h depth x0 y hW samples ridx img a b)
      (ih _ _ _ a b)

/-- The whole accumulated image is non-negative under non-negative scene
data. -/
theorem renderAccum_nonneg (W : World) (cam : CameraM) (rngF : ℕ → ℕ → ℚ)
    (w h depth samples : ℕ) (hW : NonnegWorld W) (a b : ℕ) :
    vle vzero (renderAccum W cam rngF w h depth samples a b) := by
  have := forRows_preserve (fun img : ImageM => ∀ a b, vle vzero (img a b))
    (fun r im => shadeRow W cam (rngF r) w h depth samples r im)
    (fun r img h0 a2 b2 => vle_trans (h0 a2 b2)
      (rowPixels_monotone W cam (rngF r) w h depth samples r hW w 0 0 img a2 b2))
    h (fun _ _ => vzero) (fun _ _ => vle_refl _)
  exact this a b

/-- C10: under non-negative light intensities, attenuations and texture
samples, every traced sample's running color is non-negative and
non-decreasing across bounces (with non-negative throughput), every pixel of
the image never decreases as samples accumulate, and no pixel of the
accumulated image ever holds a negative channel before normalization. -/
theorem c10_radiance_nonneg :
    (∀ (W : World) (rng : ℕ → ℚ) (nx ny : ℚ) (depth fuel did : ℕ) (st : PathState),
      NonnegWorld W → 0 < depth → vle vzero st.attenColor → vle vzero st.sampleColor →
      vle vzero (pathLoop W rng nx ny depth fuel did st).sampleColor
      ∧ vle st.sampleColor (pathLoop W rng nx ny depth fuel did st).sampleColor
      ∧ vle vzero (pathLoop W rng nx ny depth fuel did st).attenColor)
    ∧ (∀ (W : World) (cam : CameraM) (rng : ℕ → ℚ) (w h depth x y s ridx : ℕ)
        (img : ImageM) (a b : ℕ), NonnegWorld W →
      vle (img a b) (((sampleLoop W cam rng w h depth x y s ridx img).1) a b))
    ∧ (∀ (W : World) (cam : CameraM) (rngF : ℕ → ℕ → ℚ) (w h depth samples : ℕ)
        (a b : ℕ), NonnegWorld W →
      vle vzero (renderAccum W cam rngF w h depth samples a b)) := by
  refine ⟨?_, ?_, ?_⟩
  · intro W rng nx ny depth fuel did st hW hd hatt hsc
    exact pathLoop_invariant W rng nx ny depth hW hd fuel did st hatt hsc
  · intro W cam rng w h depth x y s ridx img a b hW
    exact sampleLoop_monotone W cam rng w h depth x y hW s ridx img a b
  · intro W cam rngF w h depth samples a b hW
    exact renderAccum_nonneg W cam rngF w h depth samples hW a b

/-- C10 witness: non-negativity of the accumulated image at a concrete
scene satisfying the non-negativity hypotheses. -/
theorem c10_radiance_nonneg_witness :
    vle vzero (renderAccum (quadWorld (fun q => q) vone vone) quadCam (fun _ _ => 0)
      1 1 1 1 0 0) := by
  have hW : NonnegWorld (quadWorld (fun q => q) vone vone) := by
    refine ⟨?_, ?_, ?_⟩
    · intro l hl
      simp only [quadWorld, List.mem_singleton] at hl
      subst hl
      refine ⟨by norm_num [vle, vzero, vone], ?_⟩
      intro p d a hv
      simp only [Option.some.injEq, Prod.mk.injEq] at hv
      rw [← hv.2]
      norm_num
    · intro i u v
      norm_num [quadWorld, vle, vzero, vone]
    · intro q hq
      exact hq
  exact c10_radiance_nonneg.2.2 (quadWorld (fun q => q) vone vone) quadCam
    (fun _ _ => 0) 1 1 1 1 0 0 hW

end Raytracer
